import Mathlib

/-!
Verification development for the conveyor build pipeline.

The Go source (conveyor.go, the s3 log sink, and the artifact record) is
shallowly embedded below.  Strings are modelled as lists of characters,
errors as `Option Str` (`none` means a nil error, `some msg` an error whose
message is `msg`), and each external collaborator (docker daemon, github
status API, git subprocesses, temp-dir allocation) is an oracle field of an
`Env` record giving the result of each call.  Every externally visible call
made by the pipeline is recorded as an `Event` in a trace, so theorems can
speak about which collaborator operations were invoked, with which
arguments, and in which order.
-/

set_option autoImplicit false

namespace Conveyor

/-- Strings are modelled as lists of characters. -/
abbrev Str := List Char

def strPending : Str := "pending".toList
def strSuccess : Str := "success".toList
def strError : Str := "error".toList
def strLatest : Str := "latest".toList
def strTempdir : Str := "tempdir".toList
def strStatus : Str := "status".toList
def strCheckout : Str := "checkout".toList
def strPull : Str := "pull".toList
def strBuild : Str := "build".toList
def strTag : Str := "tag".toList
def strPush : Str := "push".toList

/-- The commit status context constant from the source. -/
def contextStr : Str := "container/docker".toList

/-- Error wrapping, modelling fmt.Errorf with a stage name, as in
    fmt.Errorf applied to a format such as checkout-colon-space-message. -/
def wrap (stage msg : Str) : Str := stage ++ ": ".toList ++ msg

/-! ### The tag-not-found test

The source classifies pull errors with the regular expression
.*Tag (\S+) not found in repository (\S+) applied with MatchString
(unanchored).  Because the non-space class cannot match a space, the
pattern matches the message exactly when some position of the message
starts with the literal Tag-space, followed by a nonempty run of
non-whitespace characters, the literal mid text, and at least one further
non-whitespace character.  Whitespace is the Go regexp class: space, tab,
newline, form feed, carriage return. -/

def isSpaceGo (c : Char) : Bool :=
  c == ' ' || c == '\t' || c == '\n' || c == '\x0c' || c == '\r'

def strTagLit : Str := "Tag ".toList
def strMidLit : Str := " not found in repository ".toList

/-- Does the pattern match starting exactly at the head of s. -/
def matchTagAt (s : Str) : Bool :=
  if s.take 4 = strTagLit then
    let r1 := s.drop 4
    let w1 := r1.takeWhile (fun c => !(isSpaceGo c))
    if w1 = [] then false
    else
      let r2 := r1.drop w1.length
      if r2.take strMidLit.length = strMidLit then
        match r2.drop strMidLit.length with
        | [] => false
        | c :: _ => !(isSpaceGo c)
      else false
  else false

/-- tagNotFound from the source: the regular expression matches somewhere
    in the error message. -/
def tagNotFound : Str → Bool
  | [] => false
  | c :: rest => matchTagAt (c :: rest) || tagNotFound rest

/-! ### updateStatus and the repository split -/

/-- strings.SplitN with separator slash and limit 2: the text before the
    first slash and the remainder, or a singleton when no slash occurs. -/
def splitN2 : Str → List Str
  | [] => [[]]
  | c :: rest =>
    if c = '/' then [[], rest]
    else
      match splitN2 rest with
      | [] => [[c]]
      | p :: ps => (c :: p) :: ps

/-- The argument record of one CreateStatus call against the github API. -/
structure StatusCall where
  owner : Str
  repo : Str
  ref : Str
  state : Str
  ctx : Str
deriving DecidableEq

/-- updateStatus from the source: split the repository on the first slash
    and call CreateStatus with the two parts, the commit and the fixed
    context.  The source indexes parts at positions 0 and 1 without any
    length check; when the split has fewer than two components that index
    access is out of bounds, which the embedding makes explicit by
    returning none (the source panics there, so updateStatus is not total). -/
def updateStatusCall (repo commit status : Str) : Option StatusCall :=
  let parts := splitN2 repo
  match parts.get? 0, parts.get? 1 with
  | some o, some n =>
    some { owner := o, repo := n, ref := commit, state := status, ctx := contextStr }
  | _, _ => none

/-- The CreateStatus call produced for a repository that contains a slash:
    owner is the text before the first slash, repo the remainder. -/
def mkStatusCall (repo commit status : Str) : StatusCall :=
  { owner := repo.takeWhile (fun c => c != '/')
    repo := (repo.dropWhile (fun c => c != '/')).tail
    ref := commit
    state := status
    ctx := contextStr }

/-! ### The pipeline model -/

/-- One build request, as in the source BuildOptions (the output stream is
    a pure sink and carries no data relevant to the claims). -/
structure BuildOptions where
  Repository : Str
  Commit : Str
  Branch : Str
deriving DecidableEq

/-- Oracle for the results of all external calls the pipeline makes.
    Each field gives the error result (none is a nil error) of one kind of
    collaborator call, keyed by the arguments of that call. -/
structure Env where
  tempdir : Option Str
  statusRes : StatusCall → Option Str
  cloneRes : Option Str
  coRes : Option Str
  pullRes : Str → Str → Option Str
  buildCmdRes : Option Str
  inspectRes : Option Str
  tagRes : Str → Str → Option Str
  pushRes : Str → Str → Option Str

/-- Externally visible calls made by one pipeline run. -/
inductive Event where
  | status : StatusCall → Event
  | gitClone : Str → Str → Event
  | gitCo : Str → Event
  | pullEv : Str → Str → Event
  | buildEv : Str → Event
  | inspectEv : Str → Event
  | tagEv : Str → Str → Bool → Event
  | pushEv : Str → Str → Event
deriving DecidableEq

/-- Outcome of a run: a returned error value, or a runtime panic (which in
    the source only the out-of-bounds repository split can cause). -/
inductive BOutcome where
  | ok : Option Str → BOutcome
  | panicked : BOutcome
deriving DecidableEq

/-- One updateStatus invocation inside the pipeline: none when the
    repository split panics, otherwise the recorded CreateStatus event and
    the oracle result of that call. -/
def statusStep (env : Env) (repo commit state : Str) : Option (Event × Option Str) :=
  match updateStatusCall repo commit state with
  | none => none
  | some call => some (Event.status call, env.statusRes call)

/-- pullTags from the source.  The accumulator is the named return err of
    the Go function: every iteration assigns it the fresh pull result; a
    tag-not-found failure continues to the next tag while leaving err set;
    any other result (success, or a different failure) returns at once;
    when the loop runs out of tags the current err is returned. -/
def pullTagsAux (env : Env) (repo : Str) (err : Option Str) :
    List Str → List Event × Option Str
  | [] => ([], err)
  | t :: rest =>
    match env.pullRes repo t with
    | none => ([Event.pullEv repo t], none)
    | some m =>
      if tagNotFound m then
        let p := pullTagsAux env repo (some m) rest
        (Event.pullEv repo t :: p.1, p.2)
      else ([Event.pullEv repo t], some m)

def pullTags (env : Env) (repo : Str) (tags : List Str) : List Event × Option Str :=
  pullTagsAux env repo none tags

/-- pull from the source: try the branch tag, then latest. -/
def pull (env : Env) (o : BuildOptions) : List Event × Option Str :=
  pullTags env o.Repository [o.Branch, strLatest]

/-- tag from the source: apply each tag in order with Force set, stopping
    at the first failing TagImage call. -/
def tag (env : Env) (image : Str) : List Str → List Event × Option Str
  | [] => ([], none)
  | t :: rest =>
    match env.tagRes image t with
    | some m => ([Event.tagEv image t true], some m)
    | none =>
      let p := tag env image rest
      (Event.tagEv image t true :: p.1, p.2)

/-- push from the source: push each tag in order, stopping at the first
    failing PushImage call. -/
def push (env : Env) (image : Str) : List Str → List Event × Option Str
  | [] => ([], none)
  | t :: rest =>
    match env.pushRes image t with
    | some m => ([Event.pushEv image t], some m)
    | none =>
      let p := push env image rest
      (Event.pushEv image t :: p.1, p.2)

/-- The body of Build before the deferred terminal report runs: temp dir,
    pending status, checkout (clone then commit checkout), cache pull,
    build (docker build then InspectImage), tag, push, each early-returning
    its stage-wrapped error. -/
def buildBody (env : Env) (o : BuildOptions) : List Event × BOutcome :=
  match env.tempdir with
  | some m => ([], BOutcome.ok (some (wrap strTempdir m)))
  | none =>
  match statusStep env o.Repository o.Commit strPending with
  | none => ([], BOutcome.panicked)
  | some (ev, some m) => ([ev], BOutcome.ok (some (wrap strStatus m)))
  | some (ev, none) =>
  let evs1 := [ev, Event.gitClone o.Branch o.Repository]
  match env.cloneRes with
  | some m => (evs1, BOutcome.ok (some (wrap strCheckout m)))
  | none =>
  let evs2 := evs1 ++ [Event.gitCo o.Commit]
  match env.coRes with
  | some m => (evs2, BOutcome.ok (some (wrap strCheckout m)))
  | none =>
  let pr := pull env o
  let evs3 := evs2 ++ pr.1
  match pr.2 with
  | some m => (evs3, BOutcome.ok (some (wrap strPull m)))
  | none =>
  let evs4 := evs3 ++ [Event.buildEv o.Repository]
  match env.buildCmdRes with
  | some m => (evs4, BOutcome.ok (some (wrap strBuild m)))
  | none =>
  let evs5 := evs4 ++ [Event.inspectEv o.Repository]
  match env.inspectRes with
  | some m => (evs5, BOutcome.ok (some (wrap strBuild m)))
  | none =>
  let tr := tag env o.Repository [o.Branch, o.Commit]
  let evs6 := evs5 ++ tr.1
  match tr.2 with
  | some m => (evs6, BOutcome.ok (some (wrap strTag m)))
  | none =>
  let pu := push env o.Repository (strLatest :: [o.Branch, o.Commit])
  let evs7 := evs6 ++ pu.1
  match pu.2 with
  | some m => (evs7, BOutcome.ok (some (wrap strPush m)))
  | none => (evs7, BOutcome.ok none)

/-- Build from the source: run the body, then the deferred finalizer
    reports the terminal status derived from the named return err; the
    error returned by that deferred report is discarded.  If the body
    itself panicked at a status report, the deferred report panics the
    same way (same repository split) and no further event occurs. -/
def Build (env : Env) (o : BuildOptions) : List Event × BOutcome :=
  match buildBody env o with
  | (tr, BOutcome.panicked) => (tr, BOutcome.panicked)
  | (tr, BOutcome.ok e) =>
    let st := if e.isSome then strError else strSuccess
    match statusStep env o.Repository o.Commit st with
    | none => (tr, BOutcome.panicked)
    | some (ev, _) => (tr ++ [ev], BOutcome.ok e)

/-! ### Trace projections -/

/-- The states of the CreateStatus calls in a trace, in order. -/
def statusStates (tr : List Event) : List Str :=
  tr.filterMap fun e =>
    match e with
    | Event.status c => some c.state
    | _ => none

/-- The TagImage calls in a trace: repository, tag, force flag. -/
def tagCalls (tr : List Event) : List (Str × Str × Bool) :=
  tr.filterMap fun e =>
    match e with
    | Event.tagEv r t f => some (r, t, f)
    | _ => none

/-- The PushImage calls in a trace: image name and tag. -/
def pushCalls (tr : List Event) : List (Str × Str) :=
  tr.filterMap fun e =>
    match e with
    | Event.pushEv n t => some (n, t)
    | _ => none

/-- The PullImage calls in a trace: repository and tag. -/
def pullCalls (tr : List Event) : List (Str × Str) :=
  tr.filterMap fun e =>
    match e with
    | Event.pullEv r t => some (r, t)
    | _ => none

/-! ### The s3 log sink

The log sink buffers written bytes and flushes them as one PutObject call
on close.  Create joins the object key with filepath.Join, which cleans
the joined path (collapsing empty, dot and dotdot components), so the
cleaning algorithm of the Go path package is embedded here: split on the
separator, process the components against a stack, rejoin. -/

/-- Split a path on the separator character, keeping empty components. -/
def splitSep : Str → List Str
  | [] => [[]]
  | c :: rest =>
    if c = '/' then [] :: splitSep rest
    else
      match splitSep rest with
      | [] => [[c]]
      | p :: ps => (c :: p) :: ps

/-- strings.Join with a separator. -/
def strJoin (sep : Str) : List Str → Str
  | [] => []
  | [x] => x
  | x :: xs => x ++ sep ++ strJoin sep xs

/-- Component processing of path cleaning: empty and dot components are
    dropped; a dotdot component pops the last kept component when one is
    available and is itself not dotdot, is dropped at the root, and is kept
    when the path is relative and nothing can be popped. -/
def cleanComps (rooted : Bool) (stack : List Str) : List Str → List Str
  | [] => stack.reverse
  | c :: rest =>
    if c = [] ∨ c = ['.'] then cleanComps rooted stack rest
    else if c = ['.', '.'] then
      match stack with
      | [] =>
        if rooted then cleanComps rooted [] rest
        else cleanComps rooted [c] rest
      | top :: s2 =>
        if top = ['.', '.'] then cleanComps rooted (c :: stack) rest
        else cleanComps rooted s2 rest
    else cleanComps rooted (c :: stack) rest

/-- filepath.Clean for slash-separated paths. -/
def clean (s : Str) : Str :=
  if s = [] then ['.']
  else
    let rooted := s.head? = some '/'
    let comps := cleanComps (decide rooted) [] (splitSep s)
    let out := strJoin ['/'] comps
    if rooted then
      if out = [] then ['/'] else '/' :: out
    else
      if out = [] then ['.'] else out

/-- filepath.Join: drop leading empty elements, join the rest with the
    separator, and clean the result. -/
def filepathJoin : List Str → Str
  | [] => []
  | e :: rest =>
    if e = [] then filepathJoin rest
    else clean (strJoin ['/'] (e :: rest))

def strLogs : Str := "logs".toList
def strDotTxt : Str := ".txt".toList
def strPublicRead : Str := "public-read".toList
def strTextPlain : Str := "text/plain".toList
def strNotImpl : Str := "s3 logs: read is not implemented yet".toList

/-- The argument record of one s3 PutObject call. -/
structure PutObjectIn where
  bucket : Str
  key : Str
  acl : Str
  body : List Nat
  contentLength : Nat
  contentType : Str
deriving DecidableEq

/-- The buffering writer returned by Logs.Create: the destination bucket
    and object key, and the bytes buffered so far. -/
structure LogsW where
  bucket : Str
  name : Str
  b : List Nat
deriving DecidableEq

/-- Logs.Create from the source: the key is the join of the logs directory
    with the name suffixed by the txt extension, and the buffer starts
    empty (the source returns a nil error unconditionally). -/
def LogsCreate (bucket name : Str) : LogsW :=
  { bucket := bucket
    name := filepathJoin [strLogs, name ++ strDotTxt]
    b := [] }

/-- Logs.Open from the source: always fails with the not-implemented
    error, for every name. -/
def LogsOpen (_name : Str) : Except Str Unit :=
  Except.error strNotImpl

/-- writer.Write from the source: append to the buffer and report the
    chunk length with a nil error (bytes.Buffer writes cannot fail). -/
def writerWrite (w : LogsW) (p : List Nat) : LogsW × Nat :=
  ({ w with b := w.b ++ p }, p.length)

/-- writer.Close from the source: the list of PutObject calls performed,
    which is exactly one call flushing the whole buffer with public-read
    visibility and the plain-text content type. -/
def writerClose (w : LogsW) : List PutObjectIn :=
  [{ bucket := w.bucket
     key := w.name
     acl := strPublicRead
     body := w.b
     contentLength := w.b.length
     contentType := strTextPlain }]

/-- Write a sequence of chunks to a writer in order. -/
def writeAll (w : LogsW) : List (List Nat) → LogsW
  | [] => w
  | p :: ps => writeAll (writerWrite w p).1 ps

/-! ### Specification-side characterizations

These definitions restate, independently of the embedded control flow,
which candidates a fallback loop attempts and which error it yields; the
theorems below prove the embedded loops equal to them. -/

/-- The tags a pull loop attempts: every candidate up to and including the
    first one whose pull either succeeds or fails with a condition other
    than tag-not-found. -/
def pullAttempts (f : Str → Option Str) : List Str → List Str
  | [] => []
  | t :: rest =>
    match f t with
    | none => [t]
    | some m => if tagNotFound m then t :: pullAttempts f rest else [t]

/-- The tags a fail-fast loop attempts: every tag up to and including the
    first failing one. -/
def takeAttempts (f : Str → Option Str) : List Str → List Str
  | [] => []
  | t :: rest =>
    match f t with
    | some _ => [t]
    | none => t :: takeAttempts f rest

/-- The first error a fail-fast loop meets, if any. -/
def firstErr (f : Str → Option Str) : List Str → Option Str
  | [] => none
  | t :: rest =>
    match f t with
    | some m => some m
    | none => firstErr f rest

/-- The result of the build stage: the docker build subprocess error if
    any, otherwise the InspectImage error. -/
def buildStage (env : Env) : Option Str :=
  match env.buildCmdRes with
  | some m => some m
  | none => env.inspectRes

/-! ### Lemmas about the repository split -/

theorem splitN2_no_slash {s : Str} (h : '/' ∉ s) : splitN2 s = [s] := by
  induction s with
  | nil => rfl
  | cons c rest ih =>
    have hc : c ≠ '/' := by
      intro hh
      exact h (hh ▸ List.mem_cons_self c rest)
    have hr : '/' ∉ rest := fun hm => h (List.mem_cons_of_mem c hm)
    simp [splitN2, hc, ih hr]

theorem splitN2_slash {s : Str} (h : '/' ∈ s) :
    splitN2 s =
      [s.takeWhile (fun c => c != '/'), (s.dropWhile (fun c => c != '/')).tail] := by
  induction s with
  | nil => cases h
  | cons c rest ih =>
    by_cases hc : c = '/'
    · subst hc
      simp [splitN2, List.takeWhile_cons, List.dropWhile_cons]
    · have hr : '/' ∈ rest := by
        rcases List.mem_cons.mp h with h1 | h2
        · exact absurd h1.symm hc
        · exact h2
      simp [splitN2, hc, ih hr, List.takeWhile_cons, List.dropWhile_cons]

theorem updateStatusCall_good {repo : Str} (h : '/' ∈ repo) (commit status : Str) :
    updateStatusCall repo commit status = some (mkStatusCall repo commit status) := by
  simp [updateStatusCall, splitN2_slash h, mkStatusCall]

theorem updateStatusCall_none {repo : Str} (h : '/' ∉ repo) (commit status : Str) :
    updateStatusCall repo commit status = none := by
  simp [updateStatusCall, splitN2_no_slash h]

@[simp] theorem mkStatusCall_state (repo commit status : Str) :
    (mkStatusCall repo commit status).state = status := rfl

theorem statusStep_good {repo : Str} (env : Env) (h : '/' ∈ repo) (commit state : Str) :
    statusStep env repo commit state =
      some (Event.status (mkStatusCall repo commit state),
        env.statusRes (mkStatusCall repo commit state)) := by
  simp [statusStep, updateStatusCall_good h]

/-! ### Lemmas about the pull fallback loop -/

theorem pullTagsAux_trace (env : Env) (repo : Str) (e : Option Str) (ts : List Str) :
    (pullTagsAux env repo e ts).1 =
      (pullAttempts (env.pullRes repo) ts).map (fun t => Event.pullEv repo t) := by
  induction ts generalizing e with
  | nil => rfl
  | cons t rest ih =>
    cases hf : env.pullRes repo t with
    | none => simp [pullTagsAux, pullAttempts, hf]
    | some m =>
      cases hm : tagNotFound m with
      | false => simp [pullTagsAux, pullAttempts, hf, hm]
      | true => simp [pullTagsAux, pullAttempts, hf, hm, ih]

theorem pullAttempts_isPre (f : Str → Option Str) (ts : List Str) :
    ∃ r, ts = pullAttempts f ts ++ r := by
  induction ts with
  | nil => exact ⟨[], rfl⟩
  | cons t rest ih =>
    cases hf : f t with
    | none => exact ⟨rest, by simp [pullAttempts, hf]⟩
    | some m =>
      cases hm : tagNotFound m with
      | false => exact ⟨rest, by simp [pullAttempts, hf, hm]⟩
      | true =>
        obtain ⟨r, hr⟩ := ih
        refine ⟨r, ?_⟩
        simpa [pullAttempts, hf, hm] using hr

theorem pullTagsAux_success_stop (env : Env) (repo : Str) (pre : List Str) (t : Str)
    (rest : List Str)
    (hpre : ∀ p ∈ pre, ∃ m, env.pullRes repo p = some m ∧ tagNotFound m = true)
    (ht : env.pullRes repo t = none) (e : Option Str) :
    pullTagsAux env repo e (pre ++ t :: rest) =
      ((pre ++ [t]).map (fun x => Event.pullEv repo x), none) := by
  induction pre generalizing e with
  | nil => simp [pullTagsAux, ht]
  | cons p ps ih =>
    obtain ⟨m, hm, hnf⟩ := hpre p (List.mem_cons_self p ps)
    have hps : ∀ q ∈ ps, ∃ m, env.pullRes repo q = some m ∧ tagNotFound m = true :=
      fun q hq => hpre q (List.mem_cons_of_mem p hq)
    simp [pullTagsAux, hm, hnf, ih hps]

theorem pullTagsAux_fatal_stop (env : Env) (repo : Str) (pre : List Str) (t : Str)
    (rest : List Str) (m : Str)
    (hpre : ∀ p ∈ pre, ∃ mm, env.pullRes repo p = some mm ∧ tagNotFound mm = true)
    (ht : env.pullRes repo t = some m) (hm : tagNotFound m = false) (e : Option Str) :
    pullTagsAux env repo e (pre ++ t :: rest) =
      ((pre ++ [t]).map (fun x => Event.pullEv repo x), some m) := by
  induction pre generalizing e with
  | nil => simp [pullTagsAux, ht, hm]
  | cons p ps ih =>
    obtain ⟨mm, hmm, hnf⟩ := hpre p (List.mem_cons_self p ps)
    have hps : ∀ q ∈ ps, ∃ mm, env.pullRes repo q = some mm ∧ tagNotFound mm = true :=
      fun q hq => hpre q (List.mem_cons_of_mem p hq)
    simp [pullTagsAux, hmm, hnf, ih hps]

/-! ### Lemmas about the tag and push loops -/

theorem tag_eq (env : Env) (img : Str) (ts : List Str) :
    tag env img ts =
      ((takeAttempts (env.tagRes img) ts).map (fun t => Event.tagEv img t true),
        firstErr (env.tagRes img) ts) := by
  induction ts with
  | nil => rfl
  | cons t rest ih =>
    cases hf : env.tagRes img t with
    | none => simp [tag, takeAttempts, firstErr, hf, ih]
    | some m => simp [tag, takeAttempts, firstErr, hf]

theorem push_eq (env : Env) (img : Str) (ts : List Str) :
    push env img ts =
      ((takeAttempts (env.pushRes img) ts).map (fun t => Event.pushEv img t),
        firstErr (env.pushRes img) ts) := by
  induction ts with
  | nil => rfl
  | cons t rest ih =>
    cases hf : env.pushRes img t with
    | none => simp [push, takeAttempts, firstErr, hf, ih]
    | some m => simp [push, takeAttempts, firstErr, hf]

/-! ### Lemmas about trace projections -/

@[simp] theorem statusStates_nil : statusStates [] = [] := rfl

@[simp] theorem statusStates_append (a b : List Event) :
    statusStates (a ++ b) = statusStates a ++ statusStates b := by
  simp [statusStates]

@[simp] theorem tagCalls_nil : tagCalls [] = [] := rfl

@[simp] theorem tagCalls_append (a b : List Event) :
    tagCalls (a ++ b) = tagCalls a ++ tagCalls b := by
  simp [tagCalls]

@[simp] theorem pushCalls_nil : pushCalls [] = [] := rfl

@[simp] theorem pushCalls_append (a b : List Event) :
    pushCalls (a ++ b) = pushCalls a ++ pushCalls b := by
  simp [pushCalls]

@[simp] theorem statusStates_cons_status (c : StatusCall) (l : List Event) :
    statusStates (Event.status c :: l) = c.state :: statusStates l := rfl

@[simp] theorem statusStates_cons_gitClone (b r : Str) (l : List Event) :
    statusStates (Event.gitClone b r :: l) = statusStates l := rfl

@[simp] theorem statusStates_cons_gitCo (c : Str) (l : List Event) :
    statusStates (Event.gitCo c :: l) = statusStates l := rfl

@[simp] theorem statusStates_cons_pullEv (r t : Str) (l : List Event) :
    statusStates (Event.pullEv r t :: l) = statusStates l := rfl

@[simp] theorem statusStates_cons_buildEv (r : Str) (l : List Event) :
    statusStates (Event.buildEv r :: l) = statusStates l := rfl

@[simp] theorem statusStates_cons_inspectEv (r : Str) (l : List Event) :
    statusStates (Event.inspectEv r :: l) = statusStates l := rfl

@[simp] theorem statusStates_cons_tagEv (r t : Str) (f : Bool) (l : List Event) :
    statusStates (Event.tagEv r t f :: l) = statusStates l := rfl

@[simp] theorem statusStates_cons_pushEv (r t : Str) (l : List Event) :
    statusStates (Event.pushEv r t :: l) = statusStates l := rfl

@[simp] theorem tagCalls_cons_status (c : StatusCall) (l : List Event) :
    tagCalls (Event.status c :: l) = tagCalls l := rfl

@[simp] theorem tagCalls_cons_gitClone (b r : Str) (l : List Event) :
    tagCalls (Event.gitClone b r :: l) = tagCalls l := rfl

@[simp] theorem tagCalls_cons_gitCo (c : Str) (l : List Event) :
    tagCalls (Event.gitCo c :: l) = tagCalls l := rfl

@[simp] theorem tagCalls_cons_pullEv (r t : Str) (l : List Event) :
    tagCalls (Event.pullEv r t :: l) = tagCalls l := rfl

@[simp] theorem tagCalls_cons_buildEv (r : Str) (l : List Event) :
    tagCalls (Event.buildEv r :: l) = tagCalls l := rfl

@[simp] theorem tagCalls_cons_inspectEv (r : Str) (l : List Event) :
    tagCalls (Event.inspectEv r :: l) = tagCalls l := rfl

@[simp] theorem tagCalls_cons_tagEv (r t : Str) (f : Bool) (l : List Event) :
    tagCalls (Event.tagEv r t f :: l) = (r, t, f) :: tagCalls l := rfl

@[simp] theorem tagCalls_cons_pushEv (r t : Str) (l : List Event) :
    tagCalls (Event.pushEv r t :: l) = tagCalls l := rfl

@[simp] theorem pushCalls_cons_status (c : StatusCall) (l : List Event) :
    pushCalls (Event.status c :: l) = pushCalls l := rfl

@[simp] theorem pushCalls_cons_gitClone (b r : Str) (l : List Event) :
    pushCalls (Event.gitClone b r :: l) = pushCalls l := rfl

@[simp] theorem pushCalls_cons_gitCo (c : Str) (l : List Event) :
    pushCalls (Event.gitCo c :: l) = pushCalls l := rfl

@[simp] theorem pushCalls_cons_pullEv (r t : Str) (l : List Event) :
    pushCalls (Event.pullEv r t :: l) = pushCalls l := rfl

@[simp] theorem pushCalls_cons_buildEv (r : Str) (l : List Event) :
    pushCalls (Event.buildEv r :: l) = pushCalls l := rfl

@[simp] theorem pushCalls_cons_inspectEv (r : Str) (l : List Event) :
    pushCalls (Event.inspectEv r :: l) = pushCalls l := rfl

@[simp] theorem pushCalls_cons_tagEv (r t : Str) (f : Bool) (l : List Event) :
    pushCalls (Event.tagEv r t f :: l) = pushCalls l := rfl

@[simp] theorem pushCalls_cons_pushEv (r t : Str) (l : List Event) :
    pushCalls (Event.pushEv r t :: l) = (r, t) :: pushCalls l := rfl

@[simp] theorem statusStates_map_pull (r : Str) (l : List Str) :
    statusStates (l.map (fun t => Event.pullEv r t)) = [] := by
  induction l with
  | nil => rfl
  | cons t rest ih => simp [statusStates, List.filterMap_cons, ih]

@[simp] theorem statusStates_map_tag (r : Str) (l : List Str) :
    statusStates (l.map (fun t => Event.tagEv r t true)) = [] := by
  induction l with
  | nil => rfl
  | cons t rest ih => simp [statusStates, List.filterMap_cons, ih]

@[simp] theorem statusStates_map_push (r : Str) (l : List Str) :
    statusStates (l.map (fun t => Event.pushEv r t)) = [] := by
  induction l with
  | nil => rfl
  | cons t rest ih => simp [statusStates, List.filterMap_cons, ih]

@[simp] theorem tagCalls_map_pull (r : Str) (l : List Str) :
    tagCalls (l.map (fun t => Event.pullEv r t)) = [] := by
  induction l with
  | nil => rfl
  | cons t rest ih => simp [tagCalls, List.filterMap_cons, ih]

@[simp] theorem tagCalls_map_push (r : Str) (l : List Str) :
    tagCalls (l.map (fun t => Event.pushEv r t)) = [] := by
  induction l with
  | nil => rfl
  | cons t rest ih => simp [tagCalls, List.filterMap_cons, ih]

@[simp] theorem tagCalls_map_tag (r : Str) (l : List Str) :
    tagCalls (l.map (fun t => Event.tagEv r t true)) = l.map (fun t => (r, t, true)) := by
  induction l with
  | nil => rfl
  | cons t rest ih =>
    simp only [List.map_cons, tagCalls, List.filterMap_cons] at ih ⊢
    exact congrArg _ ih

@[simp] theorem pushCalls_map_pull (r : Str) (l : List Str) :
    pushCalls (l.map (fun t => Event.pullEv r t)) = [] := by
  induction l with
  | nil => rfl
  | cons t rest ih => simp [pushCalls, List.filterMap_cons, ih]

@[simp] theorem pushCalls_map_tag (r : Str) (l : List Str) :
    pushCalls (l.map (fun t => Event.tagEv r t true)) = [] := by
  induction l with
  | nil => rfl
  | cons t rest ih => simp [pushCalls, List.filterMap_cons, ih]

@[simp] theorem pushCalls_map_push (r : Str) (l : List Str) :
    pushCalls (l.map (fun t => Event.pushEv r t)) = l.map (fun t => (r, t)) := by
  induction l with
  | nil => rfl
  | cons t rest ih =>
    simp only [List.map_cons, pushCalls, List.filterMap_cons] at ih ⊢
    exact congrArg _ ih

/-! ### Lemmas about the log sink -/

theorem splitSep_no_slash {l : Str} (h : '/' ∉ l) : splitSep l = [l] := by
  induction l with
  | nil => rfl
  | cons c rest ih =>
    have hc : c ≠ '/' := fun hh => h (hh ▸ List.mem_cons_self c rest)
    have hr : '/' ∉ rest := fun hm => h (List.mem_cons_of_mem c hm)
    simp [splitSep, hc, ih hr]

theorem splitSep_append {a : Str} (b : Str) (h : '/' ∉ a) :
    splitSep (a ++ '/' :: b) = a :: splitSep b := by
  induction a with
  | nil => simp [splitSep]
  | cons c rest ih =>
    have hc : c ≠ '/' := fun hh => h (hh ▸ List.mem_cons_self c rest)
    have hr : '/' ∉ rest := fun hm => h (List.mem_cons_of_mem c hm)
    simp [splitSep, hc, ih hr]

theorem writeAll_eq (w : LogsW) (ps : List (List Nat)) :
    writeAll w ps = { bucket := w.bucket, name := w.name, b := w.b ++ ps.flatten } := by
  induction ps generalizing w with
  | nil => cases w; simp [writeAll]
  | cons p rest ih => simp [writeAll, writerWrite, ih, List.append_assoc]

/-- Cleaning a relative path of exactly two normal components (no
    separator inside either, neither empty, dot nor dotdot) is the
    identity. -/
theorem clean_two_comp {a b : Str} (ha : '/' ∉ a) (hb : '/' ∉ b)
    (ha1 : a ≠ []) (ha2 : a ≠ ['.']) (ha3 : a ≠ ['.', '.'])
    (hb1 : b ≠ []) (hb2 : b ≠ ['.']) (hb3 : b ≠ ['.', '.']) :
    clean (a ++ '/' :: b) = a ++ '/' :: b := by
  cases a with
  | nil => exact absurd rfl ha1
  | cons c t =>
    have hc : c ≠ '/' := fun hh => ha (hh ▸ List.mem_cons_self c t)
    have hsplit : splitSep ((c :: t) ++ '/' :: b) = [c :: t, b] := by
      rw [splitSep_append b ha, splitSep_no_slash hb]
    have hsplit2 : splitSep (c :: (t ++ '/' :: b)) = [c :: t, b] := by
      simpa using hsplit
    simp [clean, hsplit2, hc, cleanComps, ha2, ha3, hb1, hb2, hb3, strJoin]

/-- The object key produced by Logs.Create for a separator-free name. -/
theorem logsCreate_key (bucket : Str) {name : Str} (h : '/' ∉ name) :
    (LogsCreate bucket name).name = strLogs ++ '/' :: (name ++ strDotTxt) := by
  have hlen : strDotTxt.length = 4 := rfl
  have hb1 : name ++ strDotTxt ≠ [] := by simp [strDotTxt]
  have hb2 : name ++ strDotTxt ≠ ['.'] := by
    intro hh
    have h4 := congrArg List.length hh
    simp only [List.length_append, hlen, List.length_cons, List.length_nil] at h4
    omega
  have hb3 : name ++ strDotTxt ≠ ['.', '.'] := by
    intro hh
    have h4 := congrArg List.length hh
    simp only [List.length_append, hlen, List.length_cons, List.length_nil] at h4
    omega
  have hnb : '/' ∉ name ++ strDotTxt := by
    intro hm
    rcases List.mem_append.mp hm with h1 | h2
    · exact h h1
    · have : '/' ∉ strDotTxt := by decide
      exact this h2
  have ha : '/' ∉ strLogs := by decide
  have hkey : filepathJoin [strLogs, name ++ strDotTxt] =
      clean (strLogs ++ '/' :: (name ++ strDotTxt)) := by
    have hL : strLogs ≠ [] := by decide
    simp [filepathJoin, hL, strJoin, List.append_assoc]
  rw [LogsCreate]
  rw [hkey]
  exact clean_two_comp ha hnb (by decide) (by decide) (by decide) hb1 hb2 hb3

/-! ### Concrete fixtures used by the claim theorems and witnesses -/

def repoA : Str := "acme/widgets".toList
def commitA : Str := "abc123".toList
def branchA : Str := "main".toList

def optsA : BuildOptions :=
  { Repository := repoA, Commit := commitA, Branch := branchA }

/-- An environment in which every external call succeeds. -/
def envAllOk : Env :=
  { tempdir := none
    statusRes := fun _ => none
    cloneRes := none
    coRes := none
    pullRes := fun _ _ => none
    buildCmdRes := none
    inspectRes := none
    tagRes := fun _ _ => none
    pushRes := fun _ _ => none }

/-- The not-found message the docker client produces for a missing tag. -/
def msgNF (t : Str) : Str :=
  "Tag ".toList ++ t ++ " not found in repository acme/widgets".toList

def msgAuth : Str := "authentication required".toList

/-! ### Claim C1 -/

def envC1 : Env :=
  { envAllOk with pullRes := fun _ t => some (msgNF t) }

/-- C1: the claim says that when every candidate pull fails with a
    tag-not-found condition, pullTags returns no error and the pipeline
    proceeds to the build stage.  The code does not do this: the loop
    leaves the named return err holding the last not-found error when the
    candidates run out, so pullTags returns that error, Build wraps it
    with the pull stage name and aborts before the build stage, and the
    terminal status is error.  This theorem evaluates the embedded code at
    such an input: both candidate failures satisfy tagNotFound, yet
    pullTags returns the latest-tag error, the build stage is never
    invoked, and Build fails. -/
theorem C1_all_miss_returns_error :
    tagNotFound (msgNF branchA) = true ∧
    tagNotFound (msgNF strLatest) = true ∧
    (pullTags envC1 repoA [branchA, strLatest]).2 = some (msgNF strLatest) ∧
    (Build envC1 optsA).2 = BOutcome.ok (some (wrap strPull (msgNF strLatest))) ∧
    Event.buildEv repoA ∉ (Build envC1 optsA).1 ∧
    statusStates (Build envC1 optsA).1 = [strPending, strError] := by decide

/-! ### Claim C4 -/

/-- C4: when a candidate pull fails with any condition other than
    tag-not-found, after any prefix of tag-not-found misses, pullTags
    returns that error at once: the attempted pulls are exactly the prefix
    and the failing candidate, in order, and no later candidate is ever
    attempted. -/
theorem C4_non_miss_stops (env : Env) (repo : Str) (pre : List Str) (t : Str)
    (rest : List Str) (m : Str)
    (hpre : ∀ p ∈ pre, ∃ mm, env.pullRes repo p = some mm ∧ tagNotFound mm = true)
    (ht : env.pullRes repo t = some m) (hm : tagNotFound m = false) :
    (pullTags env repo (pre ++ t :: rest)).2 = some m ∧
    (pullTags env repo (pre ++ t :: rest)).1 =
      (pre ++ [t]).map (fun x => Event.pullEv repo x) ∧
    ∀ r, Event.pullEv repo r ∈ (pullTags env repo (pre ++ t :: rest)).1 →
      r ∈ pre ++ [t] := by
  have h := pullTagsAux_fatal_stop env repo pre t rest m hpre ht hm none
  refine ⟨?_, ?_, ?_⟩
  · rw [pullTags, h]
  · rw [pullTags, h]
  · intro r hr
    rw [pullTags, h] at hr
    obtain ⟨x, hx, hxe⟩ := List.mem_map.mp hr
    injection hxe with h1 h2
    subst h2
    exact hx

def envC4 : Env :=
  { envAllOk with pullRes := fun _ _ => some msgAuth }

theorem C4_witness :
    tagNotFound msgAuth = false ∧
    envC4.pullRes repoA branchA = some msgAuth ∧
    (pullTags envC4 repoA [branchA, strLatest]).2 = some msgAuth ∧
    (pullTags envC4 repoA [branchA, strLatest]).1 = [Event.pullEv repoA branchA] := by
  have h := C4_non_miss_stops envC4 repoA [] branchA [strLatest] msgAuth
    (by simp) (by decide) (by decide)
  refine ⟨by decide, by decide, ?_, ?_⟩
  · simpa using h.1
  · simpa using h.2.1

/-! ### Claim C5 -/

/-- C5: pullTags attempts candidates strictly in the given order, each
    position at most once (the attempted list is a prefix of the
    candidates), stops at the first successful pull and returns no error;
    in particular for candidates branch then latest where branch misses
    with tag-not-found and latest succeeds, both are attempted in order
    and no error is returned. -/
theorem C5_priority_order (env : Env) (repo : Str) :
    (∀ tags, (pullTags env repo tags).1 =
        (pullAttempts (env.pullRes repo) tags).map (fun t => Event.pullEv repo t) ∧
      ∃ r, tags = pullAttempts (env.pullRes repo) tags ++ r) ∧
    (∀ pre t rest, (∀ p ∈ pre, ∃ m, env.pullRes repo p = some m ∧ tagNotFound m = true) →
      env.pullRes repo t = none →
      pullTags env repo (pre ++ t :: rest) =
        ((pre ++ [t]).map (fun x => Event.pullEv repo x), none)) ∧
    (∀ branch m, env.pullRes repo branch = some m → tagNotFound m = true →
      env.pullRes repo strLatest = none →
      pullTags env repo [branch, strLatest] =
        ([Event.pullEv repo branch, Event.pullEv repo strLatest], none)) := by
  refine ⟨fun tags => ⟨pullTagsAux_trace env repo none tags, pullAttempts_isPre _ tags⟩,
    ?_, ?_⟩
  · intro pre t rest hpre ht
    exact pullTagsAux_success_stop env repo pre t rest hpre ht none
  · intro branch m hb hm hl
    have hpre : ∀ p ∈ [branch], ∃ mm, env.pullRes repo p = some mm ∧ tagNotFound mm = true := by
      intro p hp
      rw [List.mem_singleton] at hp
      subst hp
      exact ⟨m, hb, hm⟩
    have h2 := pullTagsAux_success_stop env repo [branch] strLatest [] hpre hl none
    rw [pullTags]
    simpa using h2

def envC5 : Env :=
  { envAllOk with pullRes := fun _ t => if t = branchA then some (msgNF branchA) else none }

theorem C5_witness :
    envC5.pullRes repoA branchA = some (msgNF branchA) ∧
    tagNotFound (msgNF branchA) = true ∧
    envC5.pullRes repoA strLatest = none ∧
    pullTags envC5 repoA [branchA, strLatest] =
      ([Event.pullEv repoA branchA, Event.pullEv repoA strLatest], none) := by
  exact ⟨by decide, by decide, by decide,
    (C5_priority_order envC5 repoA).2.2 branchA (msgNF branchA)
      (by decide) (by decide) (by decide)⟩

/-! ### Claim C8 -/

/-- C8: updateStatus splits the repository identifier on the first
    separator; when the identifier contains a slash, CreateStatus is
    called with the text before the first slash as owner, the remainder as
    name, and the fixed context; for an identifier with no separator the
    split has a single component, the access at index one is out of
    bounds, and updateStatus is not total (the embedding returns none
    there, where the source panics). -/
theorem C8_split_first_sep :
    (∀ repo commit status : Str, '/' ∈ repo →
      updateStatusCall repo commit status =
        some { owner := repo.takeWhile (fun c => c != '/')
               repo := (repo.dropWhile (fun c => c != '/')).tail
               ref := commit, state := status, ctx := contextStr }) ∧
    (∀ repo commit status : Str, '/' ∉ repo →
      (splitN2 repo).length = 1 ∧ (splitN2 repo).get? 1 = none ∧
      updateStatusCall repo commit status = none) := by
  constructor
  · intro repo commit status h
    exact updateStatusCall_good h commit status
  · intro repo commit status h
    refine ⟨?_, ?_, updateStatusCall_none h commit status⟩
    · rw [splitN2_no_slash h]
      rfl
    · rw [splitN2_no_slash h]
      rfl

theorem C8_witness :
    (('/' : Char) ∈ repoA ∧
      updateStatusCall repoA commitA strPending =
        some (mkStatusCall repoA commitA strPending)) ∧
    (('/' : Char) ∉ "acmewidgets".toList ∧
      updateStatusCall "acmewidgets".toList commitA strPending = none) := by
  refine ⟨⟨by decide, ?_⟩, ⟨by decide, ?_⟩⟩
  · exact C8_split_first_sep.1 repoA commitA strPending (by decide)
  · exact (C8_split_first_sep.2 "acmewidgets".toList commitA strPending (by decide)).2.2

/-! ### Claim C6 -/

/-- C6: when the pipeline reaches the build stage and the build stage
    fails, the second and final status report carries state error, and no
    TagImage or PushImage call is ever made. -/
theorem C6_build_failure (env : Env) (o : BuildOptions) (m : Str)
    (h0 : '/' ∈ o.Repository)
    (h1 : env.tempdir = none)
    (h2 : env.statusRes (mkStatusCall o.Repository o.Commit strPending) = none)
    (h3 : env.cloneRes = none) (h4 : env.coRes = none)
    (h5 : (pull env o).2 = none)
    (h6 : buildStage env = some m) :
    statusStates (Build env o).1 = [strPending, strError] ∧
    tagCalls (Build env o).1 = [] ∧
    pushCalls (Build env o).1 = [] := by
  have hs := statusStep_good env h0
  have hp1 : (pull env o).1 =
      (pullAttempts (env.pullRes o.Repository) [o.Branch, strLatest]).map
        (fun t => Event.pullEv o.Repository t) :=
    pullTagsAux_trace env o.Repository none [o.Branch, strLatest]
  cases hbc : env.buildCmdRes with
  | some mb =>
    have hmb : mb = m := by
      rw [buildStage, hbc] at h6
      exact Option.some.inj h6
    subst hmb
    simp [Build, buildBody, hs, h1, h2, h3, h4, h5, hbc, hp1]
  | none =>
    have hins : env.inspectRes = some m := by
      rw [buildStage, hbc] at h6
      exact h6
    simp [Build, buildBody, hs, h1, h2, h3, h4, h5, hbc, hins, hp1]

def envC6 : Env :=
  { envAllOk with buildCmdRes := some "exit status 1".toList }

theorem C6_witness :
    (('/' : Char) ∈ optsA.Repository ∧
      (pull envC6 optsA).2 = none ∧
      buildStage envC6 = some "exit status 1".toList) ∧
    statusStates (Build envC6 optsA).1 = [strPending, strError] ∧
    tagCalls (Build envC6 optsA).1 = [] ∧
    pushCalls (Build envC6 optsA).1 = [] := by
  refine ⟨⟨by decide, by decide, by decide⟩, ?_⟩
  exact C6_build_failure envC6 optsA "exit status 1".toList
    (by decide) (by decide) (by decide) (by decide) (by decide) (by decide) (by decide)

/-! ### Claim C7 -/

/-- C7: every failure arising in the checkout (either git command), cache
    warm (with a non-miss condition), build (either the build command or
    the image inspection), tag, or push stage makes Build return the
    underlying error message wrapped with the name of the failing stage. -/
theorem C7_stage_wrapping (env : Env) (o : BuildOptions)
    (h0 : '/' ∈ o.Repository)
    (h1 : env.tempdir = none)
    (h2 : env.statusRes (mkStatusCall o.Repository o.Commit strPending) = none) :
    (∀ m, env.cloneRes = some m →
      (Build env o).2 = BOutcome.ok (some (wrap strCheckout m))) ∧
    (∀ m, env.cloneRes = none → env.coRes = some m →
      (Build env o).2 = BOutcome.ok (some (wrap strCheckout m))) ∧
    (∀ m, env.cloneRes = none → env.coRes = none →
      (pull env o).2 = some m → tagNotFound m = false →
      (Build env o).2 = BOutcome.ok (some (wrap strPull m))) ∧
    (∀ m, env.cloneRes = none → env.coRes = none → (pull env o).2 = none →
      buildStage env = some m →
      (Build env o).2 = BOutcome.ok (some (wrap strBuild m))) ∧
    (∀ m, env.cloneRes = none → env.coRes = none → (pull env o).2 = none →
      buildStage env = none →
      (tag env o.Repository [o.Branch, o.Commit]).2 = some m →
      (Build env o).2 = BOutcome.ok (some (wrap strTag m))) ∧
    (∀ m, env.cloneRes = none → env.coRes = none → (pull env o).2 = none →
      buildStage env = none →
      (tag env o.Repository [o.Branch, o.Commit]).2 = none →
      (push env o.Repository (strLatest :: [o.Branch, o.Commit])).2 = some m →
      (Build env o).2 = BOutcome.ok (some (wrap strPush m))) := by
  have hs := statusStep_good env h0
  refine ⟨?_, ?_, ?_, ?_, ?_, ?_⟩
  · intro m hm
    simp [Build, buildBody, hs, h1, h2, hm]
  · intro m hc hm
    simp [Build, buildBody, hs, h1, h2, hc, hm]
  · intro m hc hco hm _
    simp [Build, buildBody, hs, h1, h2, hc, hco, hm]
  · intro m hc hco hp hbs
    cases hbc : env.buildCmdRes with
    | some mb =>
      have hmb : mb = m := by
        rw [buildStage, hbc] at hbs
        exact Option.some.inj hbs
      subst hmb
      simp [Build, buildBody, hs, h1, h2, hc, hco, hp, hbc]
    | none =>
      have hins : env.inspectRes = some m := by
        rw [buildStage, hbc] at hbs
        exact hbs
      simp [Build, buildBody, hs, h1, h2, hc, hco, hp, hbc, hins]
  · intro m hc hco hp hbs ht
    have hbc : env.buildCmdRes = none := by
      cases hbb : env.buildCmdRes with
      | none => rfl
      | some mb =>
        rw [buildStage, hbb] at hbs
        exact absurd hbs (by simp)
    have hins : env.inspectRes = none := by
      rw [buildStage, hbc] at hbs
      exact hbs
    simp [Build, buildBody, hs, h1, h2, hc, hco, hp, hbc, hins, ht]
  · intro m hc hco hp hbs ht hpu
    have hbc : env.buildCmdRes = none := by
      cases hbb : env.buildCmdRes with
      | none => rfl
      | some mb =>
        rw [buildStage, hbb] at hbs
        exact absurd hbs (by simp)
    have hins : env.inspectRes = none := by
      rw [buildStage, hbc] at hbs
      exact hbs
    simp [Build, buildBody, hs, h1, h2, hc, hco, hp, hbc, hins, ht, hpu]

def envC7 : Env :=
  { envAllOk with cloneRes := some "fatal: repository not found".toList }

theorem C7_witness :
    (('/' : Char) ∈ optsA.Repository ∧
      envC7.cloneRes = some "fatal: repository not found".toList) ∧
    (Build envC7 optsA).2 =
      BOutcome.ok (some (wrap strCheckout "fatal: repository not found".toList)) := by
  refine ⟨⟨by decide, by decide⟩, ?_⟩
  exact (C7_stage_wrapping envC7 optsA (by decide) (by decide) (by decide)).1
    "fatal: repository not found".toList (by decide)

/-! ### Claim C3 -/

/-- C3: on a fully successful build the TagImage calls are exactly the
    branch and commit tags in that order, each with the force flag, and
    the PushImage calls are exactly latest, branch, commit in that order;
    moreover the tag and push loops in general apply their tags in the
    given order, abort at the first failing operation, and leave already
    performed operations in the trace (no rollback), tag always passing
    force. -/
theorem C3_success_tags (env : Env) (o : BuildOptions)
    (h0 : '/' ∈ o.Repository) (h1 : env.tempdir = none)
    (h2 : env.statusRes (mkStatusCall o.Repository o.Commit strPending) = none)
    (h3 : env.cloneRes = none) (h4 : env.coRes = none)
    (h5 : (pull env o).2 = none)
    (h6 : env.buildCmdRes = none) (h7 : env.inspectRes = none)
    (h8 : env.tagRes o.Repository o.Branch = none)
    (h9 : env.tagRes o.Repository o.Commit = none)
    (h10 : env.pushRes o.Repository strLatest = none)
    (h11 : env.pushRes o.Repository o.Branch = none)
    (h12 : env.pushRes o.Repository o.Commit = none) :
    (tagCalls (Build env o).1 =
      [(o.Repository, o.Branch, true), (o.Repository, o.Commit, true)] ∧
    pushCalls (Build env o).1 =
      [(o.Repository, strLatest), (o.Repository, o.Branch), (o.Repository, o.Commit)] ∧
    (Build env o).2 = BOutcome.ok none) ∧
    (∀ env2 img ts, tag env2 img ts =
      ((takeAttempts (env2.tagRes img) ts).map (fun t => Event.tagEv img t true),
        firstErr (env2.tagRes img) ts)) ∧
    (∀ env2 img ts, push env2 img ts =
      ((takeAttempts (env2.pushRes img) ts).map (fun t => Event.pushEv img t),
        firstErr (env2.pushRes img) ts)) := by
  have hs := statusStep_good env h0
  have hp1 : (pull env o).1 =
      (pullAttempts (env.pullRes o.Repository) [o.Branch, strLatest]).map
        (fun t => Event.pullEv o.Repository t) :=
    pullTagsAux_trace env o.Repository none [o.Branch, strLatest]
  have htg2 : tag env o.Repository [o.Branch, o.Commit] =
      ([Event.tagEv o.Repository o.Branch true, Event.tagEv o.Repository o.Commit true],
        none) := by
    rw [tag_eq]
    simp [takeAttempts, firstErr, h8, h9]
  have hps2 : push env o.Repository (strLatest :: [o.Branch, o.Commit]) =
      ([Event.pushEv o.Repository strLatest, Event.pushEv o.Repository o.Branch,
        Event.pushEv o.Repository o.Commit], none) := by
    rw [push_eq]
    simp [takeAttempts, firstErr, h10, h11, h12]
  refine ⟨⟨?_, ?_, ?_⟩, fun env2 img ts => tag_eq env2 img ts,
      fun env2 img ts => push_eq env2 img ts⟩ <;>
    simp [Build, buildBody, hs, h1, h2, h3, h4, h5, h6, h7, htg2, hps2, hp1]

theorem C3_witness :
    (('/' : Char) ∈ optsA.Repository ∧ (pull envAllOk optsA).2 = none) ∧
    tagCalls (Build envAllOk optsA).1 =
      [(optsA.Repository, optsA.Branch, true), (optsA.Repository, optsA.Commit, true)] ∧
    pushCalls (Build envAllOk optsA).1 =
      [(optsA.Repository, strLatest), (optsA.Repository, optsA.Branch),
        (optsA.Repository, optsA.Commit)] ∧
    (Build envAllOk optsA).2 = BOutcome.ok none := by
  refine ⟨⟨by decide, by decide⟩, ?_⟩
  exact (C3_success_tags envAllOk optsA (by decide) (by decide) (by decide) (by decide)
    (by decide) (by decide) (by decide) (by decide) (by decide) (by decide) (by decide)
    (by decide) (by decide)).1

/-! ### Claim C10 -/

/-- C10: the error returned by the deferred terminal status report is
    discarded, so when the working-directory allocation, the pending
    report and every pipeline stage succeed, Build returns a nil error
    even though the terminal success report itself fails; the terminal
    report is still attempted (the status trace ends with success). -/
theorem C10_terminal_report_discarded (env : Env) (o : BuildOptions) (m : Str)
    (h0 : '/' ∈ o.Repository) (h1 : env.tempdir = none)
    (h2 : env.statusRes (mkStatusCall o.Repository o.Commit strPending) = none)
    (h3 : env.cloneRes = none) (h4 : env.coRes = none)
    (h5 : (pull env o).2 = none)
    (h6 : env.buildCmdRes = none) (h7 : env.inspectRes = none)
    (h8 : (tag env o.Repository [o.Branch, o.Commit]).2 = none)
    (h9 : (push env o.Repository (strLatest :: [o.Branch, o.Commit])).2 = none)
    (hfail : env.statusRes (mkStatusCall o.Repository o.Commit strSuccess) = some m) :
    (Build env o).2 = BOutcome.ok none ∧
    statusStates (Build env o).1 = [strPending, strSuccess] := by
  have hs := statusStep_good env h0
  have hp1 : (pull env o).1 =
      (pullAttempts (env.pullRes o.Repository) [o.Branch, strLatest]).map
        (fun t => Event.pullEv o.Repository t) :=
    pullTagsAux_trace env o.Repository none [o.Branch, strLatest]
  have htg1 : (tag env o.Repository [o.Branch, o.Commit]).1 =
      (takeAttempts (env.tagRes o.Repository) [o.Branch, o.Commit]).map
        (fun t => Event.tagEv o.Repository t true) := by
    rw [tag_eq]
  have hpu1 : (push env o.Repository (strLatest :: [o.Branch, o.Commit])).1 =
      (takeAttempts (env.pushRes o.Repository) (strLatest :: [o.Branch, o.Commit])).map
        (fun t => Event.pushEv o.Repository t) := by
    rw [push_eq]
  constructor <;>
    simp [Build, buildBody, hs, h1, h2, h3, h4, h5, h6, h7, h8, h9,
      hp1, htg1, hpu1]

def envC10 : Env :=
  { envAllOk with
      statusRes := fun c => if c.state = strSuccess then some "status api unavailable".toList else none }

theorem C10_witness :
    (envC10.statusRes (mkStatusCall repoA commitA strSuccess) =
        some "status api unavailable".toList ∧
      envC10.statusRes (mkStatusCall repoA commitA strPending) = none) ∧
    (Build envC10 optsA).2 = BOutcome.ok none ∧
    statusStates (Build envC10 optsA).1 = [strPending, strSuccess] := by
  refine ⟨⟨by decide, by decide⟩, ?_⟩
  exact C10_terminal_report_discarded envC10 optsA "status api unavailable".toList
    (by decide) (by decide) (by decide) (by decide) (by decide) (by decide) (by decide)
    (by decide) (by decide) (by decide) (by decide)

/-! ### Claim C2 -/

/-- The claim as stated: the terminal status is reported after exactly one
    pending report, which for the only states this program ever reports
    means the status trace is pending followed by one terminal state. -/
def C2ClaimAt (env : Env) (o : BuildOptions) : Prop :=
  ∃ t, (t = strSuccess ∨ t = strError) ∧
    statusStates (Build env o).1 = [strPending, t]

def envC2 : Env :=
  { envAllOk with tempdir := some "no space left on device".toList }

/-- C2 counterexample: when the working-directory allocation fails, the
    deferred finalizer still reports the terminal error status, but no
    pending report precedes it (the pending report comes after the temp
    dir in the source), so the claim that the terminal status follows
    exactly one pending status on every exit path including
    working-directory allocation is false at this input. -/
theorem C2_counterexample : ¬ C2ClaimAt envC2 optsA := by
  intro h
  obtain ⟨t, _, ht⟩ := h
  have hss : statusStates (Build envC2 optsA).1 = [strError] := by decide
  rw [hss] at ht
  have hlen := congrArg List.length ht
  simp at hlen

/-- C2 as amended: for every request whose repository identifier contains
    a separator, Build always returns (never panics) and reports exactly
    one terminal status on every exit path, error exactly when Build
    returns an error; it is preceded by exactly one pending report on
    every exit path except a working-directory allocation failure, where
    no pending report precedes it. -/
theorem C2_amended_status (env : Env) (o : BuildOptions) (h0 : '/' ∈ o.Repository) :
    ∃ e, (Build env o).2 = BOutcome.ok e ∧
      statusStates (Build env o).1 =
        (match env.tempdir with
         | some _ => []
         | none => [strPending]) ++
        [if e.isSome then strError else strSuccess] := by
  have hs := statusStep_good env h0
  have hp1 : (pull env o).1 =
      (pullAttempts (env.pullRes o.Repository) [o.Branch, strLatest]).map
        (fun t => Event.pullEv o.Repository t) :=
    pullTagsAux_trace env o.Repository none [o.Branch, strLatest]
  have htg1 : (tag env o.Repository [o.Branch, o.Commit]).1 =
      (takeAttempts (env.tagRes o.Repository) [o.Branch, o.Commit]).map
        (fun t => Event.tagEv o.Repository t true) := by
    rw [tag_eq]
  have hpu1 : (push env o.Repository (strLatest :: [o.Branch, o.Commit])).1 =
      (takeAttempts (env.pushRes o.Repository) (strLatest :: [o.Branch, o.Commit])).map
        (fun t => Event.pushEv o.Repository t) := by
    rw [push_eq]
  cases h1 : env.tempdir with
  | some m =>
    refine ⟨some (wrap strTempdir m), ?_, ?_⟩ <;>
      simp [Build, buildBody, hs, h1]
  | none =>
  cases h2 : env.statusRes (mkStatusCall o.Repository o.Commit strPending) with
  | some m =>
    refine ⟨some (wrap strStatus m), ?_, ?_⟩ <;>
      simp [Build, buildBody, hs, h1, h2]
  | none =>
  cases h3 : env.cloneRes with
  | some m =>
    refine ⟨some (wrap strCheckout m), ?_, ?_⟩ <;>
      simp [Build, buildBody, hs, h1, h2, h3]
  | none =>
  cases h4 : env.coRes with
  | some m =>
    refine ⟨some (wrap strCheckout m), ?_, ?_⟩ <;>
      simp [Build, buildBody, hs, h1, h2, h3, h4]
  | none =>
  cases h5 : (pull env o).2 with
  | some m =>
    refine ⟨some (wrap strPull m), ?_, ?_⟩ <;>
      simp [Build, buildBody, hs, h1, h2, h3, h4, h5, hp1]
  | none =>
  cases h6 : env.buildCmdRes with
  | some m =>
    refine ⟨some (wrap strBuild m), ?_, ?_⟩ <;>
      simp [Build, buildBody, hs, h1, h2, h3, h4, h5, h6, hp1]
  | none =>
  cases h7 : env.inspectRes with
  | some m =>
    refine ⟨some (wrap strBuild m), ?_, ?_⟩ <;>
      simp [Build, buildBody, hs, h1, h2, h3, h4, h5, h6, h7, hp1]
  | none =>
  cases h8 : (tag env o.Repository [o.Branch, o.Commit]).2 with
  | some m =>
    refine ⟨some (wrap strTag m), ?_, ?_⟩ <;>
      simp [Build, buildBody, hs, h1, h2, h3, h4, h5, h6, h7, h8, hp1, htg1]
  | none =>
  cases h9 : (push env o.Repository (strLatest :: [o.Branch, o.Commit])).2 with
  | some m =>
    refine ⟨some (wrap strPush m), ?_, ?_⟩ <;>
      simp [Build, buildBody, hs, h1, h2, h3, h4, h5, h6, h7, h8, h9, hp1, htg1,
        hpu1]
  | none =>
    refine ⟨none, ?_, ?_⟩ <;>
      simp [Build, buildBody, hs, h1, h2, h3, h4, h5, h6, h7, h8, h9, hp1, htg1,
        hpu1]

theorem C2_witness :
    (('/' : Char) ∈ optsA.Repository) ∧
    ∃ e, (Build envAllOk optsA).2 = BOutcome.ok e ∧
      statusStates (Build envAllOk optsA).1 =
        (match envAllOk.tempdir with
         | some _ => []
         | none => [strPending]) ++
        [if e.isSome then strError else strSuccess] :=
  ⟨by decide, C2_amended_status envAllOk optsA (by decide)⟩

/-! ### Claim C9 -/

/-- C9 as amended: for every bucket, every separator-free name and every
    sequence of chunks written to the stream returned by Create, closing
    the stream performs exactly one PutObject write whose body is the
    in-order concatenation of the written bytes, at the key formed of the
    logs directory, the name and the txt extension, with public-read
    visibility and plain-text content type; and Open always fails with the
    not-implemented error for every name.  (For names containing
    separators the key is the cleaned joined path, which can differ from
    that concatenation; see the counterexample.) -/
theorem C9_log_roundtrip (bucket name : Str) (chunks : List (List Nat))
    (h : '/' ∉ name) :
    writerClose (writeAll (LogsCreate bucket name) chunks) =
      [{ bucket := bucket
         key := strLogs ++ '/' :: (name ++ strDotTxt)
         acl := strPublicRead
         body := chunks.flatten
         contentLength := chunks.flatten.length
         contentType := strTextPlain }] ∧
    (∀ n2, LogsOpen n2 = Except.error strNotImpl) := by
  constructor
  · have hb : (LogsCreate bucket name).bucket = bucket := rfl
    have h0 : (LogsCreate bucket name).b = [] := rfl
    have hk := logsCreate_key bucket h
    simp [writerClose, writeAll_eq, hb, h0, hk]
  · intro n2
    rfl

/-- C9 counterexample: the claim as stated promises the key for every
    name, but filepath.Join cleans the path, so a name containing a dotdot
    component produces a different key: for the name dotdot-slash-x the
    single write goes to key x.txt, not to the logs directory key the
    claim promises. -/
theorem C9_counterexample :
    (writerClose (writeAll (LogsCreate "bkt".toList "../x".toList) [[104]])).map
        PutObjectIn.key = ["x.txt".toList] ∧
    "x.txt".toList ≠ "logs/".toList ++ "../x".toList ++ strDotTxt := by decide

theorem C9_witness :
    (('/' : Char) ∉ "build-42".toList) ∧
    writerClose (writeAll (LogsCreate "bkt".toList "build-42".toList) [[104, 105], [10]]) =
      [{ bucket := "bkt".toList
         key := strLogs ++ '/' :: ("build-42".toList ++ strDotTxt)
         acl := strPublicRead
         body := [104, 105, 10]
         contentLength := 3
         contentType := strTextPlain }] ∧
    LogsOpen "build-42".toList = Except.error strNotImpl := by
  have h := C9_log_roundtrip "bkt".toList "build-42".toList [[104, 105], [10]] (by decide)
  refine ⟨by decide, ?_, h.2 "build-42".toList⟩
  rw [h.1]
  decide

end Conveyor
